import Mathlib

/-!
Verification of the midi-keyboard-display sampler engine against its
specification.  The definitions below are shallow embeddings of the C++
sources: `SamplerEngine.cpp` (filename parsing, instrument-map building,
velocity layers, fallbacks, RAM-mode note-on and renderer),
`PluginProcessor.cpp` (MIDI dispatch and sustain-pedal handling) and the
streaming-mode `SamplerEngine::noteOn` variant.  Machine doubles are
modelled as exact reals, machine ints as `Int`, and fallible paths as
`Option` or the source's own `-1` sentinels.
-/

namespace MidiSampler

/-- Character predicate of juce's whitespace skipping in `getIntValue`:
space or ASCII 9..13. -/
def isJuceSpace (c : Char) : Bool :=
  c == ' ' || (9 ≤ c.toNat && c.toNat ≤ 13)

/-- Accumulate the leading decimal-digit prefix of a character list, as in
juce's `CharacterFunctions::getIntValue` loop: read digits until the first
non-digit. -/
def intDigitsVal (acc : Int) : List Char → Int
  | [] => acc
  | c :: cs => if c.isDigit then intDigitsVal (acc * 10 + ((c.toNat : Int) - 48)) cs else acc

/-- juce `String::getIntValue` on a character list: skip leading whitespace,
read one optional minus sign, then the longest digit prefix; everything
after the first non-digit is ignored. -/
def getIntValueChars (cs : List Char) : Int :=
  match cs.dropWhile isJuceSpace with
  | [] => 0
  | c :: rest =>
    if c = '-' then - intDigitsVal 0 rest else intDigitsVal 0 (c :: rest)

/-- juce `upToLastOccurrenceOf "."` on the character list of a file name:
everything before the last dot, or the whole list when no dot occurs. -/
def stemChars (cs : List Char) : List Char :=
  if ('.') ∈ cs then ((cs.reverse.dropWhile (fun c => c ≠ '.')).drop 1).reverse else cs

/-- Worker for `splitUnderscore`: accumulates the current token (reversed). -/
def splitAux : List Char → List Char → List (List Char)
  | [], cur => [cur.reverse]
  | c :: rest, cur => if c = '_' then cur.reverse :: splitAux rest [] else splitAux rest (c :: cur)

/-- juce `StringArray::addTokens` with break character set "_": consecutive
underscores yield empty tokens; empty input yields no tokens. -/
def splitUnderscore (cs : List Char) : List (List Char) :=
  match cs with
  | [] => []
  | _ => splitAux cs []

/-- Note-letter table of `SamplerEngine::parseNoteName`
(`C=0, D=2, E=4, F=5, G=7, A=9, B=11`, default `-1`). -/
def letterBase (c : Char) : Int :=
  if c = 'C' then 0
  else if c = 'D' then 2
  else if c = 'E' then 4
  else if c = 'F' then 5
  else if c = 'G' then 7
  else if c = 'A' then 9
  else if c = 'B' then 11
  else -1

/-- Accidental handling of `parseNoteName`: `#` raises, a `b`/`B` followed by
a decimal digit lowers; the remaining characters form the octave part.
Returns the adjusted base and the octave characters.  The third source
branch (lowercase 'b' on the original string) is subsumed by the
case-folded one but kept for fidelity. -/
def accidentalSplit (b0 : Int) : List Char → Int × List Char
  | [] => (b0, [])
  | c1 :: t2 =>
    if c1.toUpper = '#' then (b0 + 1, t2)
    else if c1.toUpper = 'B' ∧ (match t2 with | c2 :: _ => c2.isDigit | [] => false) = true then
      (b0 - 1, t2)
    else if c1 = 'b' ∧ (match t2 with | c2 :: _ => c2.isDigit | [] => false) = true then
      (b0 - 1, t2)
    else (b0, c1 :: t2)

/-- Octave characters accepted by the source's `containsOnly "0123456789-"`. -/
def isOctChar (c : Char) : Bool :=
  c.isDigit || c == '-'

/-- Octave-and-range step of `parseNoteName`: given the accidental-adjusted
base and the octave characters, check the octave part is nonempty and made
of octave characters, read it with `getIntValue`, and require the MIDI note
`(octave + 1) * 12 + base` to lie in `0..=127`, else `-1`. -/
def noteFromParts (pr : Int × List Char) : Int :=
  if pr.2.isEmpty then -1
  else if ¬ (pr.2.all isOctChar = true) then -1
  else if (getIntValueChars pr.2 + 1) * 12 + pr.1 < 0 ∨
          (getIntValueChars pr.2 + 1) * 12 + pr.1 > 127 then -1
  else (getIntValueChars pr.2 + 1) * 12 + pr.1

/-- `SamplerEngine::parseNoteName` on a character list.  Mirrors the source:
case-insensitive letter lookup, optional accidental, then
`noteFromParts`. -/
def parseNoteNameChars : List Char → Int
  | [] => -1
  | c0 :: tail =>
    if letterBase c0.toUpper = -1 then -1
    else noteFromParts (accidentalSplit (letterBase c0.toUpper) tail)

/-- `SamplerEngine::parseNoteName` on a string. -/
def parseNoteName (s : String) : Int :=
  parseNoteNameChars s.toList

/-- `SamplerEngine::parseFileName` (Source/SamplerEngine.cpp): strip the
extension, split the stem on underscores, require at least three tokens,
parse note name, velocity (digits only, 1..=127) and round-robin (digits
only, 1..=3; the source rejects round-robins above 3).  Returns the parsed
triple or `none`. -/
def parseFileName (fileName : String) : Option (Int × Int × Int) :=
  match splitUnderscore (stemChars fileName.toList) with
  | p0 :: p1 :: p2 :: _ =>
    if parseNoteNameChars p0 < 0 then none
    else if p1.length < 1 ∨ ¬ (p1.all Char.isDigit = true) then none
    else if getIntValueChars p1 < 1 ∨ getIntValueChars p1 > 127 then none
    else if p2.length < 1 ∨ ¬ (p2.all Char.isDigit = true) then none
    else if getIntValueChars p2 < 1 ∨ getIntValueChars p2 > 3 then none
    else some (parseNoteNameChars p0, getIntValueChars p1, getIntValueChars p2)
  | _ => none

/-- Velocity layer record of `SamplerEngine.h`: the velocity value from the
file name plus the derived inclusive range. -/
structure VelocityLayer where
  velocityValue : Int
  velocityRangeStart : Int
  velocityRangeEnd : Int
deriving DecidableEq, Repr

/-- Per-note mapping of `SamplerEngine.h`: velocity layers (sorted by
velocity ascending after the build) and a fallback note, `-1` when the
note has its own samples. -/
structure NoteMapping where
  velocityLayers : List VelocityLayer
  fallbackNote : Int
deriving DecidableEq, Repr

/-- Accumulator of the load loop in `loadSamplesInBackground`: for each
parsed file `(note, velocity, roundRobin)` of the given note, push a new
velocity layer unless a layer with that velocity value already exists. -/
def layerAcc (n : Int) : List (Int × Int × Int) → List Int → List Int
  | [], acc => acc
  | f :: fs, acc => layerAcc n fs (if f.1 = n ∧ f.2.1 ∉ acc then acc ++ [f.2.1] else acc)

/-- Velocity values collected for MIDI note `n` from the parsed files, in
first-appearance order (duplicate `(note, velocity)` pairs add no layer). -/
def layerValuesFor (files : List (Int × Int × Int)) (n : Nat) : List Int :=
  layerAcc (n : Int) files []

/-- Ordered insertion used to model `std::sort` by `velocityValue`
ascending (the values are distinct, so the sorted list is unique). -/
def insertAsc (v : Int) : List Int → List Int
  | [] => [v]
  | w :: ws => if v ≤ w then v :: w :: ws else w :: insertAsc v ws

/-- Insertion sort, ascending. -/
def sortAsc : List Int → List Int
  | [] => []
  | v :: vs => insertAsc v (sortAsc vs)

/-- Range derivation of `buildVelocityRanges`: the layer for value `v`
starts at the running `start` (1 for the lowest layer, previous value + 1
afterwards) and ends at `v`. -/
def rangesFrom : Int → List Int → List VelocityLayer
  | _, [] => []
  | s, v :: vs => ⟨v, s, v⟩ :: rangesFrom (v + 1) vs

/-- Sorted velocity layers with derived ranges for one note
(`buildVelocityRanges` applied to that note's layer list). -/
def mkLayers (vals : List Int) : List VelocityLayer :=
  rangesFrom 1 (sortAsc vals)

/-- The parsed files of a folder listing: file names that fail
`parseFileName` are skipped. -/
def parsedOf (names : List String) : List (Int × Int × Int) :=
  names.filterMap parseFileName

/-- Fallback search of `buildNoteFallbacks`: the first note in
`n+1, ..., 127` that has its own samples. -/
def searchHigher (files : List (Int × Int × Int)) (n : Nat) : Option Nat :=
  (List.range' (n + 1) (127 - n)).find? (fun h => !(layerValuesFor files h).isEmpty)

/-- The note mapping the load pipeline builds for MIDI note `n` from the
given file names: sorted layers with ranges and fallback `-1` when the note
has its own samples; an empty placeholder pointing at the next higher note
with samples when one exists; no mapping otherwise. -/
def buildMapping (names : List String) (n : Nat) : Option NoteMapping :=
  if layerValuesFor (parsedOf names) n ≠ [] then
    some ⟨mkLayers (layerValuesFor (parsedOf names) n), -1⟩
  else
    match searchHigher (parsedOf names) n with
    | some f => some ⟨[], (f : Int)⟩
    | none => none

/-- Layer scan of `getVelocityLayerIndex`: return the index of the first
layer whose inclusive range contains the velocity, else `-1`. -/
def layerScan : List VelocityLayer → Nat → Int → Int
  | [], _, _ => -1
  | l :: ls, i, w =>
    if l.velocityRangeStart ≤ w ∧ w ≤ l.velocityRangeEnd then (i : Int)
    else layerScan ls (i + 1) w

/-- `SamplerEngine::getVelocityLayerIndex`: redirect through the fallback
note, then scan that note's velocity layers. -/
def getVelocityLayerIndex (m : Nat → Option NoteMapping) (midiNote : Nat) (velocity : Int) : Int :=
  match m midiNote with
  | none => -1
  | some mp =>
    match m (if mp.fallbackNote ≥ 0 then mp.fallbackNote.toNat else midiNote) with
    | none => -1
    | some actual => layerScan actual.velocityLayers 0 velocity

/-- Range membership test of one velocity layer, as scanned by
`getVelocityLayerIndex` and `findSample`. -/
def inLayerRange (w : Int) (l : VelocityLayer) : Bool :=
  decide (l.velocityRangeStart ≤ w ∧ w ≤ l.velocityRangeEnd)

/-- Concrete one-file library used as a witness input: a single sample at
C4 with velocity layer 100, round-robin 1. -/
def namesOne : List String := [ "C4_100_01.wav" ]

/-- Envelope/fade mode of a streaming voice, abstracting the
`StreamingVoice` internals (StreamingVoice.cpp is not under src/): the
ADSR stage entered by `startVoice`, the tail-off of `stopVoice(true)`, the
10 ms quick fade, or idle. -/
inductive VoiceMode
  | idle
  | attack
  | releasing
  | quickFade
deriving DecidableEq, Repr

/-- Streaming voice as observed by `SamplerEngine`: active flag, the MIDI
note being played, and the abstract mode. -/
structure SVoice where
  active : Bool
  playingNote : Int
  mode : VoiceMode
deriving DecidableEq, Repr

/-- Modelled from the spec: `StreamingVoice::startVoice` (implementation
missing from src/) — the voice becomes active on the requested note with
the envelope in Attack. -/
def startedVoice (note : Int) : SVoice :=
  ⟨true, note, VoiceMode.attack⟩

/-- Modelled from the spec: `StreamingVoice::startQuickFadeOut`
(implementation missing from src/) — begin the 10 ms linear gain ramp to
zero; the voice stays active until the ramp ends. -/
def quickFadeOut (v : SVoice) : SVoice :=
  { v with mode := VoiceMode.quickFade }

/-- Modelled from the spec: `StreamingVoice::stopVoice false`
(implementation missing from src/) — immediate stop without tail. -/
def stopNow (v : SVoice) : SVoice :=
  ⟨false, v.playingNote, VoiceMode.idle⟩

/-- One streaming sample record: its articulation key (the preload data is
irrelevant to voice dispatch). -/
structure SSample where
  midiNote : Nat
  velocity : Int
  roundRobin : Int
deriving DecidableEq, Repr

/-- Streaming-engine state: the fixed voice array, the note mappings and
the loaded streaming samples. -/
structure EngineState where
  voices : List SVoice
  mappings : Nat → Option NoteMapping
  samples : List SSample

/-- Fallback redirection prefix of `findStreamingSample`: use the mapping's
fallback note when one is assigned. -/
def actualNoteOf (m : Nat → Option NoteMapping) (note : Nat) : Nat :=
  match m note with
  | some mp => if mp.fallbackNote ≥ 0 then mp.fallbackNote.toNat else note
  | none => note

/-- Layer test of `findStreamingSample`: some velocity layer contains the
velocity and carries the sample's velocity value. -/
def layerMatches (layers : List VelocityLayer) (velocity value : Int) : Bool :=
  layers.any (fun l =>
    decide (l.velocityRangeStart ≤ velocity ∧ velocity ≤ l.velocityRangeEnd ∧
      l.velocityValue = value))

/-- `SamplerEngine::findStreamingSample`: redirect through the fallback
note, then return the first streaming sample of that note whose velocity
value owns the layer containing the velocity.  The requested round-robin is
only a preference: the source returns the first match whether or not its
round-robin equals the request, so the parameter does not affect the
result. -/
def findStreamingSample (st : EngineState) (note : Nat) (velocity rr : Int) : Option SSample :=
  st.samples.find? (fun ss =>
    ss.midiNote == actualNoteOf st.mappings note &&
    (match st.mappings (actualNoteOf st.mappings note) with
     | none => false
     | some mp2 => layerMatches mp2.velocityLayers velocity ss.velocity))

/-- Worker of `firstInactive`. -/
def firstInactiveAux : List SVoice → Nat → Option Nat
  | [], _ => none
  | v :: vs, i => if v.active then firstInactiveAux vs (i + 1) else some i

/-- Index of the first inactive voice, as found by the voice-allocation
loops of `noteOn`/`noteOnStreaming`. -/
def firstInactive (vs : List SVoice) : Option Nat :=
  firstInactiveAux vs 0

/-- juce `jlimit` on ints. -/
def jlimitInt (lower upper x : Int) : Int :=
  if x < lower then lower else if upper < x then upper else x

/-- Streaming `SamplerEngine::noteOn` (src/unnamed/part_004, lines
494-539): resolve the sample from the offset note, give every active voice
playing the same note a 10 ms quick fade-out, then start the first
inactive voice on the note; when no voice is inactive, voice 0 is stopped
immediately (`stopVoice(false)`) and restarted on the new note — the
restart overwrites the stopped state, so the net effect on slot 0 is
`startedVoice`. -/
def fadeSameNote (vs : List SVoice) (midiNote : Int) : List SVoice :=
  vs.map (fun v => if v.active = true ∧ v.playingNote = midiNote then quickFadeOut v else v)

def noteOnP4 (st : EngineState) (midiNote velocity rr sampleOffset : Int) : EngineState :=
  match findStreamingSample st (jlimitInt 0 127 (midiNote + sampleOffset)).toNat velocity rr with
  | none => st
  | some _ =>
    match firstInactive (fadeSameNote st.voices midiNote) with
    | some i =>
      { st with voices := (fadeSameNote st.voices midiNote).set i (startedVoice midiNote) }
    | none =>
      { st with voices := (fadeSameNote st.voices midiNote).set 0 (startedVoice midiNote) }

/-- `SamplerEngine::noteOnStreaming` (src/Source/SamplerEngine.cpp, lines
1077-1121): resolve the sample from the requested note (no offset, no
same-note handling), start the first inactive voice; when none is
inactive, voice 0 is stopped with `stopVoice(false)` and restarted. -/
def noteOnStreamingSrc (st : EngineState) (midiNote velocity rr : Int) : EngineState :=
  match findStreamingSample st midiNote.toNat velocity rr with
  | none => st
  | some _ =>
    match firstInactive st.voices with
    | some i => { st with voices := st.voices.set i (startedVoice midiNote) }
    | none => { st with voices := st.voices.set 0 (startedVoice midiNote) }

def mapOne : Nat → Option NoteMapping :=
  fun n => if n = 60 then some ⟨[⟨100, 1, 100⟩], -1⟩ else none

def stTwo : EngineState :=
  ⟨[⟨true, 60, VoiceMode.attack⟩, ⟨false, 0, VoiceMode.idle⟩], mapOne, [⟨60, 100, 1⟩]⟩

def stFull : EngineState :=
  ⟨List.replicate 180 ⟨true, 61, VoiceMode.attack⟩, mapOne, [⟨60, 100, 1⟩]⟩

/-- MIDI events consumed by `MidiKeyboardProcessor::processBlock`, as
classified by juce (a note-on with velocity 0 is already delivered as a
note-off by `isNoteOff`). -/
inductive MidiEvent
  | controller (num val : Int)
  | noteOnEv (note vel : Int)
  | noteOffEv (note : Int)
deriving DecidableEq, Repr

/-- Calls the processor makes into the sampler engine while handling one
MIDI message. -/
inductive EngineCall
  | on (note vel rr off : Int)
  | off (note : Int)
deriving DecidableEq, Repr

/-- Processor state relevant to MIDI dispatch: sustain-pedal flag, the
128-entry sustained-note vector, the round-robin cursor, and the transpose
and sample-offset amounts.  The display-only arrays (`noteVelocities`,
`noteVelocityLayerIdx`, `noteRoundRobin`, `noteLayersActivated`,
`noteRRActivated`) do not influence the engine calls and are omitted. -/
structure PState where
  sustainPedalDown : Bool
  noteSustained : List Bool
  currentRoundRobin : Int
  transposeAmount : Int
  sampleOffsetAmount : Int
deriving DecidableEq, Repr

/-- One MIDI message of `MidiKeyboardProcessor::processBlock`
(Source/PluginProcessor.cpp, lines 44-118): returns the new state and the
sampler-engine calls made.  CC64 with value >= 64 sets the pedal down,
< 64 up; on the up-edge every sustained note is released through
`samplerEngine.noteOff` and all sustained flags are cleared; a note-off
under the pedal only marks the note sustained; a note-off with the pedal
up releases immediately.  Note numbers are transposed and clamped to
0..=127 before use. -/
def handleEvent (st : PState) (e : MidiEvent) : PState × List EngineCall :=
  match e with
  | .controller num val =>
    if num = 64 then
      if val < 64 ∧ st.sustainPedalDown = true then
        ({ st with sustainPedalDown := false,
                   noteSustained := st.noteSustained.map (fun _ => false) },
         (List.range 128).filterMap (fun i =>
           if st.noteSustained.getD i false = true then some (EngineCall.off (i : Int))
           else none))
      else ({ st with sustainPedalDown := decide (val ≥ 64) }, [])
    else (st, [])
  | .noteOnEv note vel =>
    ({ st with
        noteSustained :=
          st.noteSustained.set (jlimitInt 0 127 (note + st.transposeAmount)).toNat false,
        currentRoundRobin := st.currentRoundRobin % 3 + 1 },
     [EngineCall.on (jlimitInt 0 127 (note + st.transposeAmount)) vel st.currentRoundRobin
        st.sampleOffsetAmount])
  | .noteOffEv note =>
    if st.sustainPedalDown = true then
      ({ st with
          noteSustained :=
            st.noteSustained.set (jlimitInt 0 127 (note + st.transposeAmount)).toNat true }, [])
    else (st, [EngineCall.off (jlimitInt 0 127 (note + st.transposeAmount))])

def pstateW : PState := ⟨true, (List.replicate 128 false).set 60 true, 1, 0, 0⟩


end MidiSampler

namespace MidiSampler

/-- ADSR envelope stage of the RAM-mode engine (`SamplerEngine.h`). -/
inductive EnvelopeStage
  | idle
  | attack
  | decay
  | sustain
  | release
deriving DecidableEq, Repr

/-- RAM-mode `Sample`: articulation key, native sample rate and the decoded
buffer (indexed channel, frame) with its dimensions. -/
structure RamSample where
  midiNote : Int
  velocity : Int
  roundRobin : Int
  sampleRate : ℝ
  numFrames : Nat
  numChannels : Nat
  buffer : Nat → Nat → ℝ

/-- RAM-mode `VelocityLayer` with its round-robin sample slots (the source
array has 4 entries, indices 1..3 used; modelled as a function). -/
structure RamLayer where
  velocityValue : Int
  velocityRangeStart : Int
  velocityRangeEnd : Int
  roundRobinSamples : Int → Option RamSample

/-- RAM-mode `NoteMapping`. -/
structure RamMapping where
  velocityLayers : List RamLayer
  fallbackNote : Int

/-- `ADSRParams`: seconds for the three times, level for sustain. -/
structure Params where
  attack : ℝ
  decay : ℝ
  sustain : ℝ
  release : ℝ

/-- `SamplerEngine::setADSR`: stage times clamped to at least 1 ms
(`jmax(0.001f, x)`), sustain clamped to `[0,1]` (`jlimit(0,1,s)`). -/
noncomputable def setADSR (attack decay sustain release : ℝ) : Params :=
  ⟨max 0.001 attack, max 0.001 decay,
   if sustain < 0 then 0 else if 1 < sustain then 1 else sustain,
   max 0.001 release⟩

/-- RAM-mode `Voice` of `SamplerEngine.h`. -/
structure RVoice where
  sample : Option RamSample
  position : ℝ
  pitchRate : ℝ
  midiNote : Int
  active : Bool
  envStage : EnvelopeStage
  envLevel : ℝ
  envIncrement : ℝ

/-- Round-robin fallback loop of `findSample`: the first non-null slot
among positions 1..3. -/
def firstRR (l : RamLayer) : Option RamSample :=
  match l.roundRobinSamples 1 with
  | some s => some s
  | none =>
    match l.roundRobinSamples 2 with
    | some s => some s
    | none => l.roundRobinSamples 3

/-- Fallback redirection of `findSample`. -/
def ramActual (mp : RamMapping) (midiNote : Int) : Int :=
  if mp.fallbackNote ≥ 0 then mp.fallbackNote else midiNote

/-- `SamplerEngine::findSample` (Source/SamplerEngine.cpp, lines 541-586):
redirect through the fallback note, locate the velocity layer whose range
contains the velocity, take the requested round-robin slot if it is in
1..=3 and filled, else the first filled slot; returns the sample and the
note it is stored under (`actualSampleNote`). -/
def findSample (m : Int → Option RamMapping) (midiNote velocity rr : Int) :
    Option (RamSample × Int) :=
  match m midiNote with
  | none => none
  | some mp =>
    match m (ramActual mp midiNote) with
    | none => none
    | some amp =>
      match amp.velocityLayers.find? (fun l =>
          decide (l.velocityRangeStart ≤ velocity ∧ velocity ≤ l.velocityRangeEnd)) with
      | none => none
      | some l =>
        if 1 ≤ rr ∧ rr ≤ 3 then
          match l.roundRobinSamples rr with
          | some s => some (s, ramActual mp midiNote)
          | none =>
            match firstRR l with
            | some s => some (s, ramActual mp midiNote)
            | none => none
        else none

/-- Worker of `firstInactiveR`. -/
def firstInactiveRAux : List RVoice → Nat → Option Nat
  | [], _ => none
  | v :: vs, i => if v.active then firstInactiveRAux vs (i + 1) else some i

/-- Index of the first inactive RAM voice (`noteOn`'s first loop). -/
def firstInactiveR (vs : List RVoice) : Option Nat :=
  firstInactiveRAux vs 0

/-- Stealing loop of the RAM `noteOn`: the voice with the most progress,
starting from `maxPosition = -1.0`. -/
noncomputable def stealAux : List RVoice → Nat → ℝ → Option Nat → Option Nat
  | [], _, _, best => best
  | v :: vs, i, maxPos, best =>
    if maxPos < v.position then stealAux vs (i + 1) v.position (some i)
    else stealAux vs (i + 1) maxPos best

/-- Index of the RAM voice to steal. -/
noncomputable def stealIdx (vs : List RVoice) : Option Nat :=
  stealAux vs 0 (-1) none

/-- Voice initialisation of the RAM `noteOn` (lines 634-647): position 0,
pitch rate `(sourceRate / hostRate) * 2^((note − sourceNote) / 12)`,
Attack stage with level 0 and increment `1 / (attack · sampleRate)`. -/
noncomputable def startVoiceR (s : RamSample) (actualNote midiNote : Int) (p : Params)
    (sr : ℝ) : RVoice :=
  { sample := some s
    position := 0
    pitchRate := (s.sampleRate / sr) * (2 : ℝ) ^ ((((midiNote - actualNote : Int)) : ℝ) / 12)
    midiNote := midiNote
    active := true
    envStage := EnvelopeStage.attack
    envLevel := 0
    envIncrement := 1 / (p.attack * sr) }

/-- RAM-mode `SamplerEngine::noteOn` (lines 597-648, streaming disabled):
resolve the sample, pick the first inactive voice — else steal the voice
with the most progress — and initialise it; a no-op when the lookup fails
(or, vacuously, when there are no voices at all). -/
noncomputable def noteOnRAM (voices : List RVoice) (m : Int → Option RamMapping) (p : Params)
    (sr : ℝ) (midiNote velocity rr : Int) : List RVoice :=
  match findSample m midiNote velocity rr with
  | none => voices
  | some (s, actualNote) =>
    match firstInactiveR voices with
    | some i => voices.set i (startVoiceR s actualNote midiNote p sr)
    | none =>
      match stealIdx voices with
      | some i => voices.set i (startVoiceR s actualNote midiNote p sr)
      | none => voices

/-- One voice's update in RAM-mode `SamplerEngine::noteOff` (lines
650-670): an active voice on the note that is not already releasing enters
Release with increment `−envLevel / (release · sampleRate)`. -/
noncomputable def noteOffRAMVoice (p : Params) (sr : ℝ) (midiNote : Int) (v : RVoice) : RVoice :=
  if v.active = true ∧ v.midiNote = midiNote ∧ v.envStage ≠ EnvelopeStage.release then
    { v with envStage := EnvelopeStage.release,
             envIncrement := - v.envLevel / (p.release * sr) }
  else v

/-- Linear interpolation of `processBlock` (lines 750-767): sample the
buffer at `floor(position)` and the next frame (clamped to the last frame)
on the channel clamped to the channel count. -/
noncomputable def interpAt (s : RamSample) (pos : ℝ) (ch : Nat) : ℝ :=
  s.buffer (min ch (s.numChannels - 1)) ⌊pos⌋₊ +
    (s.buffer (min ch (s.numChannels - 1))
        (if ⌊pos⌋₊ + 1 ≥ s.numFrames then s.numFrames - 1 else ⌊pos⌋₊ + 1) -
      s.buffer (min ch (s.numChannels - 1)) ⌊pos⌋₊) * (pos - (⌊pos⌋₊ : ℝ))

/-- Envelope advance of one output frame in `processBlock` (lines 706-748):
add the increment, then clamp/transition per stage — Attack clamps at 1 and
enters Decay, Decay clamps at the sustain level and enters Sustain, Sustain
holds the sustain level, Release keeps falling (the zero crossing is
handled by `renderFrame`). -/
noncomputable def advanceEnv (p : Params) (sr : ℝ) (v : RVoice) : RVoice :=
  match v.envStage with
  | EnvelopeStage.attack =>
    if 1 ≤ v.envLevel + v.envIncrement then
      { v with envLevel := 1, envStage := EnvelopeStage.decay,
               envIncrement := (p.sustain - 1) / (p.decay * sr) }
    else { v with envLevel := v.envLevel + v.envIncrement }
  | EnvelopeStage.decay =>
    if v.envLevel + v.envIncrement ≤ p.sustain then
      { v with envLevel := p.sustain, envStage := EnvelopeStage.sustain, envIncrement := 0 }
    else { v with envLevel := v.envLevel + v.envIncrement }
  | EnvelopeStage.sustain => { v with envLevel := p.sustain }
  | EnvelopeStage.release => { v with envLevel := v.envLevel + v.envIncrement }
  | EnvelopeStage.idle => { v with envLevel := v.envLevel + v.envIncrement }

/-- One output frame of the RAM renderer for one active voice (the body of
the inner loop of `processBlock`, lines 694-777): deactivate at the end of
the sample or in Idle; deactivate the moment Release reaches level 0 (that
frame mixes nothing); otherwise advance the envelope, emit the
interpolated source value scaled by the new level on every channel, and
advance the position by the pitch rate. -/
noncomputable def renderFrame (p : Params) (sr : ℝ) (s : RamSample) (v : RVoice) :
    RVoice × Option (Nat → ℝ) :=
  if v.position ≥ (s.numFrames : ℝ) - 1 ∨ v.envStage = EnvelopeStage.idle then
    ({ v with active := false, sample := none, envStage := EnvelopeStage.idle }, none)
  else if v.envStage = EnvelopeStage.release ∧ v.envLevel + v.envIncrement ≤ 0 then
    ({ v with envLevel := 0, envStage := EnvelopeStage.idle, active := false, sample := none },
     none)
  else
    ({ advanceEnv p sr v with position := v.position + v.pitchRate },
     some (fun ch => interpAt s v.position ch * (advanceEnv p sr v).envLevel))

/-- The RAM renderer over a block of `n` output frames: stop at the first
deactivating frame (the source `break`/`continue`), collecting the
per-frame channel contributions that are mix-added into the output. -/
noncomputable def renderBlock (p : Params) (sr : ℝ) (s : RamSample) :
    Nat → RVoice → RVoice × List (Nat → ℝ)
  | 0, v => (v, [])
  | n + 1, v =>
    match renderFrame p sr s v with
    | (v1, none) => (v1, [])
    | (v1, some c) => ((renderBlock p sr s n v1).1, c :: (renderBlock p sr s n v1).2)

/-- Envelope invariant of a RAM voice: the level lies in `[0,1]` and the
stored increment has the sign its stage demands (set by `noteOn`,
`noteOff` and the stage transitions). -/
def VoiceInv (v : RVoice) : Prop :=
  0 ≤ v.envLevel ∧ v.envLevel ≤ 1 ∧
  (v.envStage = EnvelopeStage.attack → 0 ≤ v.envIncrement) ∧
  (v.envStage = EnvelopeStage.decay → v.envIncrement ≤ 0) ∧
  (v.envStage = EnvelopeStage.release → v.envIncrement ≤ 0)

/-- What `setADSR` guarantees of the parameters. -/
def ParamsOk (p : Params) : Prop :=
  0.001 ≤ p.attack ∧ 0.001 ≤ p.decay ∧ 0 ≤ p.sustain ∧ p.sustain ≤ 1 ∧ 0.001 ≤ p.release

/-- A concrete 44.1 kHz mono sample (silence) for the concrete checks. -/
noncomputable def sW : RamSample :=
  { midiNote := 60, velocity := 100, roundRobin := 1, sampleRate := 44100,
    numFrames := 4, numChannels := 1, buffer := fun _ _ => 0 }

/-- A concrete velocity layer holding `sW` in round-robin slot 1. -/
noncomputable def layerW : RamLayer :=
  { velocityValue := 127, velocityRangeStart := 1, velocityRangeEnd := 127,
    roundRobinSamples := fun i => if i = 1 then some sW else none }

/-- A concrete one-note RAM instrument map (note 60, no fallback). -/
noncomputable def mapW : Int → Option RamMapping :=
  fun n => if n = 60 then some { velocityLayers := [layerW], fallbackNote := -1 } else none

/-- Concrete ADSR parameters produced by `setADSR`. -/
noncomputable def pW : Params := setADSR 0.01 0.1 0.7 0.3

/-- A concrete one-slot voice list (an idle voice at position 0). -/
noncomputable def voicesW : List RVoice :=
  [ { sample := none, position := 0, pitchRate := 1, midiNote := -1, active := false,
      envStage := EnvelopeStage.idle, envLevel := 0, envIncrement := 0 } ]

/-- A concrete attacking voice satisfying the envelope invariant. -/
noncomputable def vW : RVoice :=
  { sample := some sW, position := 0, pitchRate := 1, midiNote := 60, active := true,
    envStage := EnvelopeStage.attack, envLevel := 0, envIncrement := 0.1 }

end MidiSampler

namespace MidiSampler

theorem noteFromParts_range (pr : Int × List Char) :
    noteFromParts pr = -1 ∨ (0 ≤ noteFromParts pr ∧ noteFromParts pr ≤ 127) := by
  unfold noteFromParts
  split_ifs with h1 h2 h3
  · exact Or.inl rfl
  · exact Or.inl rfl
  · right
    push_neg at h3
    omega
  · exact Or.inl rfl

theorem parseNoteNameChars_range (cs : List Char) :
    parseNoteNameChars cs = -1 ∨
    (0 ≤ parseNoteNameChars cs ∧ parseNoteNameChars cs ≤ 127) := by
  cases cs with
  | nil => exact Or.inl rfl
  | cons c0 tail =>
    simp only [parseNoteNameChars]
    split_ifs with h1
    · exact Or.inl rfl
    · exact noteFromParts_range _

theorem parseFileName_bounds (s : String) (n v r : Int)
    (h : parseFileName s = some (n, v, r)) :
    0 ≤ n ∧ n ≤ 127 ∧ 1 ≤ v ∧ v ≤ 127 ∧ 1 ≤ r ∧ r ≤ 3 := by
  unfold parseFileName at h
  split at h
  case h_2 => exact absurd h (by simp)
  case h_1 =>
    rename_i p0 p1 p2 rest heq
    split_ifs at h with h1 h2 h3 h4 h5
    simp only [Option.some.injEq, Prod.mk.injEq] at h
    obtain ⟨hn, hv, hr⟩ := h
    subst hn hv hr
    push_neg at h1 h2 h3 h4 h5
    rcases parseNoteNameChars_range p0 with hneg | hrange <;> omega

theorem insertAsc_perm (v : Int) (l : List Int) : List.Perm (insertAsc v l) (v :: l) := by
  induction l with
  | nil => rfl
  | cons w ws ih =>
    simp only [insertAsc]
    split_ifs with hv
    · rfl
    · exact (List.Perm.cons w ih).trans (List.Perm.swap v w ws)

theorem sortAsc_perm (l : List Int) : List.Perm (sortAsc l) l := by
  induction l with
  | nil => rfl
  | cons v vs ih => exact (insertAsc_perm v (sortAsc vs)).trans (ih.cons v)

theorem insertAsc_sorted (v : Int) (l : List Int) (h : l.Pairwise (· ≤ ·)) :
    (insertAsc v l).Pairwise (· ≤ ·) := by
  induction l with
  | nil => simp [insertAsc]
  | cons w ws ih =>
    rw [List.pairwise_cons] at h
    simp only [insertAsc]
    split_ifs with hv
    · rw [List.pairwise_cons]
      refine ⟨?_, List.pairwise_cons.mpr h⟩
      intro x hx
      rcases List.mem_cons.mp hx with hx | hx
      · omega
      · have := h.1 x hx; omega
    · rw [List.pairwise_cons]
      refine ⟨?_, ih h.2⟩
      intro x hx
      rcases List.mem_cons.mp ((insertAsc_perm v ws).mem_iff.mp hx) with hx | hx
      · omega
      · exact h.1 x hx

theorem sortAsc_sorted (l : List Int) : (sortAsc l).Pairwise (· ≤ ·) := by
  induction l with
  | nil => exact List.Pairwise.nil
  | cons v vs ih => exact insertAsc_sorted v (sortAsc vs) ih

theorem sortAsc_lt_of_nodup (l : List Int) (h : l.Nodup) :
    (sortAsc l).Pairwise (· < ·) := by
  have hs := sortAsc_sorted l
  have hn : (sortAsc l).Nodup := (sortAsc_perm l).nodup_iff.mpr h
  have := List.Pairwise.and hs hn
  exact this.imp (fun hab => lt_of_le_of_ne hab.1 hab.2)

theorem layerAcc_nodup (n : Int) (fs : List (Int × Int × Int)) :
    ∀ acc : List Int, acc.Nodup → (layerAcc n fs acc).Nodup := by
  induction fs with
  | nil => intro acc h; exact h
  | cons f fs ih =>
    intro acc h
    simp only [layerAcc]
    split_ifs with hf
    · exact ih _ (by simp [List.nodup_append, h, hf.2])
    · exact ih _ h

theorem layerAcc_mem (n : Int) (fs : List (Int × Int × Int)) :
    ∀ acc x, x ∈ layerAcc n fs acc → x ∈ acc ∨ ∃ f ∈ fs, f.1 = n ∧ f.2.1 = x := by
  induction fs with
  | nil => intro acc x h; exact Or.inl h
  | cons f fs ih =>
    intro acc x h
    simp only [layerAcc] at h
    split_ifs at h with hf
    · rcases ih _ _ h with hx | ⟨g, hg, hgx⟩
      · rcases List.mem_append.mp hx with hx | hx
        · exact Or.inl hx
        · right
          refine ⟨f, List.mem_cons_self f fs, hf.1, ?_⟩
          have : x = f.2.1 := by simpa using hx
          exact this.symm
      · exact Or.inr ⟨g, List.mem_cons_of_mem f hg, hgx⟩
    · rcases ih _ _ h with hx | ⟨g, hg, hgx⟩
      · exact Or.inl hx
      · exact Or.inr ⟨g, List.mem_cons_of_mem f hg, hgx⟩

theorem layerValuesFor_nodup (files : List (Int × Int × Int)) (n : Nat) :
    (layerValuesFor files n).Nodup :=
  layerAcc_nodup _ files [] List.nodup_nil

theorem layerValuesFor_mem (files : List (Int × Int × Int)) (n : Nat) (x : Int)
    (h : x ∈ layerValuesFor files n) : ∃ f ∈ files, f.1 = (n : Int) ∧ f.2.1 = x := by
  rcases layerAcc_mem _ files [] x h with hx | hx
  · simp at hx
  · exact hx

theorem parsedOf_velocity_bounds (names : List String) (f : Int × Int × Int)
    (h : f ∈ parsedOf names) : 0 ≤ f.1 ∧ f.1 ≤ 127 ∧ 1 ≤ f.2.1 ∧ f.2.1 ≤ 127 ∧ 1 ≤ f.2.2 ∧ f.2.2 ≤ 3 := by
  obtain ⟨s, _, hs⟩ := List.mem_filterMap.mp h
  obtain ⟨n, v, r⟩ := f
  have := parseFileName_bounds s n v r hs
  exact ⟨this.1, this.2.1, this.2.2.1, this.2.2.2.1, this.2.2.2.2.1, this.2.2.2.2.2⟩

theorem layerValuesFor_bounds (names : List String) (n : Nat) (x : Int)
    (h : x ∈ layerValuesFor (parsedOf names) n) : 1 ≤ x ∧ x ≤ 127 := by
  obtain ⟨f, hf, _, hfx⟩ := layerValuesFor_mem _ n x h
  have := parsedOf_velocity_bounds names f hf
  omega

theorem rangesFrom_length (vs : List Int) : ∀ s : Int, (rangesFrom s vs).length = vs.length := by
  induction vs with
  | nil => intro s; rfl
  | cons v vs ih => intro s; simp [rangesFrom, ih]

theorem rangesFrom_values (vs : List Int) :
    ∀ s : Int, (rangesFrom s vs).map VelocityLayer.velocityValue = vs := by
  induction vs with
  | nil => intro s; rfl
  | cons v vs ih => intro s; simp [rangesFrom, ih]

theorem rangesFrom_consecutive (vs : List Int) :
    ∀ (s : Int) (j : Nat) (l1 l2 : VelocityLayer),
      (rangesFrom s vs).get? j = some l1 → (rangesFrom s vs).get? (j + 1) = some l2 →
      l2.velocityRangeStart = l1.velocityRangeEnd + 1 := by
  induction vs with
  | nil => intro s j l1 l2 h1 _; simp [rangesFrom] at h1
  | cons v vs ih =>
    intro s j l1 l2 h1 h2
    cases j with
    | zero =>
      simp only [rangesFrom, List.get?] at h1 h2
      cases vs with
      | nil => simp [rangesFrom] at h2
      | cons v2 vs2 =>
        simp only [rangesFrom, List.get?] at h2
        cases h1; cases h2; rfl
    | succ j =>
      simp only [rangesFrom, List.get?] at h1 h2
      exact ih (v + 1) j l1 l2 h1 h2

theorem rangesFrom_end_eq_value (vs : List Int) :
    ∀ (s : Int) (j : Nat) (l : VelocityLayer),
      (rangesFrom s vs).get? j = some l → l.velocityRangeEnd = l.velocityValue := by
  induction vs with
  | nil => intro s j l h; simp [rangesFrom] at h
  | cons v vs ih =>
    intro s j l h
    cases j with
    | zero => simp only [rangesFrom, List.get?] at h; cases h; rfl
    | succ j => simp only [rangesFrom, List.get?] at h; exact ih (v + 1) j l h

theorem layerScan_miss_high (vs : List Int) :
    ∀ (s : Int) (i : Nat) (w : Int), (∀ v ∈ vs, v < w) →
      layerScan (rangesFrom s vs) i w = -1 := by
  induction vs with
  | nil => intro s i w _; rfl
  | cons v vs ih =>
    intro s i w hall
    have hv := hall v (List.mem_cons_self v vs)
    simp only [rangesFrom, layerScan]
    rw [if_neg (by omega)]
    exact ih (v + 1) (i + 1) w (fun x hx => hall x (List.mem_cons_of_mem v hx))

theorem layerScan_found (vs : List Int) :
    ∀ (s : Int) (i : Nat) (w : Int),
      List.Chain (· < ·) (s - 1) vs → s ≤ w → (∃ v ∈ vs, w ≤ v) →
      ∃ j, j < vs.length ∧ layerScan (rangesFrom s vs) i w = ((i + j : Nat) : Int) := by
  induction vs with
  | nil => intro s i w _ _ hex; simp at hex
  | cons v vs ih =>
    intro s i w hchain hsw hex
    rw [List.chain_cons] at hchain
    simp only [rangesFrom, layerScan]
    by_cases hwv : w ≤ v
    · refine ⟨0, by simp, ?_⟩
      rw [if_pos ⟨hsw, hwv⟩]
      simp
    · rw [if_neg (by omega)]
      have hchain2 : List.Chain (· < ·) (v + 1 - 1) vs := by
        simpa using hchain.2
      have hex2 : ∃ x ∈ vs, w ≤ x := by
        obtain ⟨x, hx, hwx⟩ := hex
        rcases List.mem_cons.mp hx with rfl | hx
        · omega
        · exact ⟨x, hx, hwx⟩
      obtain ⟨j, hj, heq⟩ := ih (v + 1) (i + 1) w hchain2 (by omega) hex2
      refine ⟨j + 1, by simpa using Nat.succ_lt_succ hj, ?_⟩
      rw [heq]
      congr 1
      omega

theorem countP_rangesFrom (vs : List Int) :
    ∀ (s : Int) (w : Int), List.Chain (· < ·) (s - 1) vs →
      (rangesFrom s vs).countP (inLayerRange w) =
        if s ≤ w ∧ ∃ v ∈ vs, w ≤ v then 1 else 0 := by
  induction vs with
  | nil => intro s w _; simp [rangesFrom]
  | cons v vs ih =>
    intro s w hchain
    rw [List.chain_cons] at hchain
    have hsv : s ≤ v := by omega
    have hchain2 : List.Chain (· < ·) (v + 1 - 1) vs := by simpa using hchain.2
    simp only [rangesFrom, List.countP_cons]
    rw [ih (v + 1) w hchain2]
    by_cases hwv : w ≤ v
    · have tail0 : ¬ (v + 1 ≤ w ∧ ∃ x ∈ vs, w ≤ x) := by
        rintro ⟨h2, _⟩; omega
      rw [if_neg tail0]
      by_cases hsw : s ≤ w
      · have hhead : inLayerRange w ⟨v, s, v⟩ = true := by
          simp only [inLayerRange, decide_eq_true_eq]
          exact ⟨hsw, hwv⟩
        have hP : s ≤ w ∧ ∃ x ∈ v :: vs, w ≤ x :=
          ⟨hsw, ⟨v, List.mem_cons_self v vs, hwv⟩⟩
        rw [hhead, if_pos hP]
        simp
      · have hhead : inLayerRange w ⟨v, s, v⟩ = false := by
          simp only [inLayerRange, decide_eq_false_iff_not]
          rintro ⟨h1, _⟩; omega
        have hP : ¬ (s ≤ w ∧ ∃ x ∈ v :: vs, w ≤ x) := by
          rintro ⟨h1, _⟩; omega
        rw [hhead, if_neg hP]
        simp
    · have hhead : inLayerRange w ⟨v, s, v⟩ = false := by
        simp only [inLayerRange, decide_eq_false_iff_not]
        rintro ⟨_, h2⟩; omega
      rw [hhead]
      have hiff : (v + 1 ≤ w ∧ ∃ x ∈ vs, w ≤ x) ↔ (s ≤ w ∧ ∃ x ∈ v :: vs, w ≤ x) := by
        constructor
        · rintro ⟨h1, x, hx, hwx⟩
          exact ⟨by omega, x, List.mem_cons_of_mem v hx, hwx⟩
        · rintro ⟨h1, x, hx, hwx⟩
          rcases List.mem_cons.mp hx with rfl | hx
          · omega
          · exact ⟨by omega, x, hx, hwx⟩
      rw [if_congr hiff rfl rfl]
      simp

theorem chain_le_getLast? (vs : List Int) :
    ∀ (a x v : Int), List.Chain (· < ·) a vs → vs.getLast? = some x → v ∈ vs → v ≤ x := by
  induction vs with
  | nil => intro a x v _ h _; simp at h
  | cons w ws ih =>
    intro a x v hchain hlast hv
    rw [List.chain_cons] at hchain
    cases ws with
    | nil =>
      simp at hlast
      rcases List.mem_singleton.mp hv with rfl
      omega
    | cons w2 ws2 =>
      have hlast2 : (w2 :: ws2).getLast? = some x := by
        rw [List.getLast?_cons_cons] at hlast
        exact hlast
      rcases List.mem_cons.mp hv with rfl | hv
      · have hw2 : w2 ≤ x := ih v x w2 hchain.2 hlast2 (List.mem_cons_self w2 ws2)
        have hvw2 : v < w2 := (List.chain_cons.mp hchain.2).1
        omega
      · exact ih w x v hchain.2 hlast2 hv

theorem find?_first {α : Type} (p : α → Bool) :
    ∀ (l : List α) (a : α), l.find? p = some a →
      p a = true ∧ ∃ l1 l2, l = l1 ++ a :: l2 ∧ ∀ x ∈ l1, p x = false := by
  intro l
  induction l with
  | nil => intro a h; simp at h
  | cons b bs ih =>
    intro a h
    by_cases hb : p b = true
    · rw [List.find?_cons_of_pos bs hb] at h
      cases h
      exact ⟨hb, [], bs, rfl, by simp⟩
    · rw [List.find?_cons_of_neg bs (by simpa using hb)] at h
      obtain ⟨hp, l1, l2, hsplit, hmiss⟩ := ih a h
      refine ⟨hp, b :: l1, l2, by rw [hsplit]; rfl, ?_⟩
      intro x hx
      rcases List.mem_cons.mp hx with rfl | hx
      · simpa using hb
      · exact hmiss x hx

theorem searchHigher_spec (files : List (Int × Int × Int)) (n f : Nat)
    (h : searchHigher files n = some f) :
    n < f ∧ f < 128 ∧ layerValuesFor files f ≠ [] ∧
      ∀ h2, n < h2 → h2 < f → layerValuesFor files h2 = [] := by
  unfold searchHigher at h
  obtain ⟨hp, l1, l2, hsplit, hmiss⟩ := find?_first _ _ _ h
  have hf_mem : f ∈ List.range' (n + 1) (127 - n) := by
    rw [hsplit]; simp
  rw [List.mem_range'_1] at hf_mem
  have hfne : layerValuesFor files f ≠ [] := by
    simpa using hp
  refine ⟨by omega, by omega, hfne, ?_⟩
  intro h2 hn2 h2f
  have hmem2 : h2 ∈ List.range' (n + 1) (127 - n) := by
    rw [List.mem_range'_1]; omega
  have hpair : (List.range' (n + 1) (127 - n)).Pairwise (· < ·) :=
    List.pairwise_lt_range' (n + 1) (127 - n)
  rw [hsplit] at hmem2 hpair
  rcases List.mem_append.mp hmem2 with h1 | hcons
  · have := hmiss h2 h1
    simpa using this
  · rcases List.mem_cons.mp hcons with rfl | h1
    · omega
    · have hlt : f < h2 :=
        (List.pairwise_cons.mp (List.pairwise_append.mp hpair).2.1).1 h2 h1
      omega

theorem searchHigher_none (files : List (Int × Int × Int)) (n : Nat)
    (h : searchHigher files n = none) :
    ∀ h2, n < h2 → h2 < 128 → layerValuesFor files h2 = [] := by
  unfold searchHigher at h
  rw [List.find?_eq_none] at h
  intro h2 hn2 hlt
  have hmem : h2 ∈ List.range' (n + 1) (127 - n) := by
    rw [List.mem_range'_1]; omega
  have := h h2 hmem
  simpa using this

theorem sortAsc_chain_zero (vals : List Int) (hnd : vals.Nodup) (hb : ∀ x ∈ vals, 1 ≤ x) :
    List.Chain (· < ·) 0 (sortAsc vals) := by
  have hp : (sortAsc vals).Pairwise (· < ·) := sortAsc_lt_of_nodup vals hnd
  have hmem : ∀ x ∈ sortAsc vals, 0 < x := by
    intro x hx
    have := hb x ((sortAsc_perm vals).mem_iff.mp hx)
    omega
  exact List.chain_iff_pairwise.mpr (List.pairwise_cons.mpr ⟨hmem, hp⟩)

/-- C4: for every instrument map built from any set of file names and every
MIDI note without its own velocity layers, an assigned fallback note is the
smallest note strictly greater than it that has its own layers (so it is
strictly greater than the note, refers to a note with own layers, and is
never the note itself); no mapping entry is created when no higher such note
exists; and a note with its own layers gets fallback `-1`. -/
theorem C4_fallback_invariant (names : List String) (n : Nat) :
    (∀ mp, buildMapping names n = some mp → 0 ≤ mp.fallbackNote →
       layerValuesFor (parsedOf names) n = [] ∧
       mp.velocityLayers = [] ∧
       n < mp.fallbackNote.toNat ∧ mp.fallbackNote.toNat < 128 ∧
       layerValuesFor (parsedOf names) mp.fallbackNote.toNat ≠ [] ∧
       (∀ h2, n < h2 → h2 < mp.fallbackNote.toNat → layerValuesFor (parsedOf names) h2 = [])) ∧
    (∀ mp, buildMapping names n = some mp → layerValuesFor (parsedOf names) n ≠ [] →
       mp.fallbackNote = -1) ∧
    (buildMapping names n = none →
       ∀ h2, n < h2 → h2 < 128 → layerValuesFor (parsedOf names) h2 = []) := by
  by_cases hv : layerValuesFor (parsedOf names) n = []
  · rw [buildMapping, if_neg (by simpa using hv)]
    cases hs : searchHigher (parsedOf names) n with
    | some f =>
      obtain ⟨hnf, hf128, hfne, hmin⟩ := searchHigher_spec _ _ _ hs
      refine ⟨?_, ?_, ?_⟩
      · intro mp hmp _
        cases hmp
        refine ⟨hv, rfl, ?_, ?_, ?_, ?_⟩ <;> simp only [Int.toNat_natCast]
        exacts [hnf, hf128, hfne, hmin]
      · intro mp _ hne
        exact absurd hv hne
      · intro hnone
        exact absurd hnone (by simp)
    | none =>
      refine ⟨?_, ?_, ?_⟩
      · intro mp hmp
        exact absurd hmp (by simp)
      · intro mp hmp
        exact absurd hmp (by simp)
      · intro _
        exact searchHigher_none _ _ hs
  · rw [buildMapping, if_pos (by simpa using hv)]
    refine ⟨?_, ?_, ?_⟩
    · intro mp hmp h0
      cases hmp
      simp at h0
    · intro mp hmp _
      cases hmp
      rfl
    · intro hnone
      exact absurd hnone (by simp)

/-- C1 (amended): for every instrument map built from any set of file names
and every note with its own velocity layers, the derived ranges are
contiguous from 1 (`layers[0].velocityRangeStart = 1`,
`layers[i].velocityRangeStart = layers[i-1].velocityRangeEnd + 1`,
`velocityRangeEnd = velocityValue`, layers sorted by velocity ascending),
and `getVelocityLayerIndex` by any velocity from 1 up to the highest
layer's `velocityValue` hits exactly one layer and returns its index;
however velocities above the highest layer's `velocityValue` hit no layer
and return `-1` — they are not clamped into the top layer. -/
theorem C1_velocity_partition (names : List String) (n : Nat) (mp : NoteMapping)
    (hmp : buildMapping names n = some mp) (hne : mp.velocityLayers ≠ []) :
    (∀ l0, mp.velocityLayers.head? = some l0 → l0.velocityRangeStart = 1) ∧
    (∀ j l1 l2, mp.velocityLayers.get? j = some l1 →
       mp.velocityLayers.get? (j + 1) = some l2 →
       l2.velocityRangeStart = l1.velocityRangeEnd + 1) ∧
    (∀ j l, mp.velocityLayers.get? j = some l → l.velocityRangeEnd = l.velocityValue) ∧
    (mp.velocityLayers.map VelocityLayer.velocityValue).Pairwise (· < ·) ∧
    (∀ w : Int, 1 ≤ w →
       (∀ ltop, mp.velocityLayers.getLast? = some ltop → w ≤ ltop.velocityValue) →
       mp.velocityLayers.countP (inLayerRange w) = 1 ∧
       ∃ j, j < mp.velocityLayers.length ∧
         getVelocityLayerIndex (buildMapping names) n w = (j : Int)) ∧
    (∀ w : Int,
       (∀ ltop, mp.velocityLayers.getLast? = some ltop → ltop.velocityValue < w) →
       getVelocityLayerIndex (buildMapping names) n w = -1) := by
  by_cases hv : layerValuesFor (parsedOf names) n = []
  · exfalso
    rw [buildMapping, if_neg (by simpa using hv)] at hmp
    cases hs : searchHigher (parsedOf names) n with
    | some f => rw [hs] at hmp; cases hmp; exact hne rfl
    | none => rw [hs] at hmp; exact absurd hmp (by simp)
  · have hbm : buildMapping names n =
        some ⟨mkLayers (layerValuesFor (parsedOf names) n), -1⟩ := by
      rw [buildMapping, if_pos (by simpa using hv)]
    rw [hbm] at hmp
    cases hmp
    set vals := layerValuesFor (parsedOf names) n with hvals
    have hnd : vals.Nodup := layerValuesFor_nodup _ n
    have hb : ∀ x ∈ vals, 1 ≤ x := fun x hx => (layerValuesFor_bounds names n x hx).1
    have hchain0 : List.Chain (· < ·) 0 (sortAsc vals) := sortAsc_chain_zero vals hnd hb
    have h11 : (1 : Int) - 1 = 0 := rfl
    have hchain : List.Chain (· < ·) ((1 : Int) - 1) (sortAsc vals) := by
      rw [h11]; exact hchain0
    have hVne : sortAsc vals ≠ [] := by
      intro h
      apply hne
      show mkLayers vals = []
      rw [mkLayers, h]
      rfl
    -- map of values
    have hmapval : (mkLayers vals).map VelocityLayer.velocityValue = sortAsc vals :=
      rangesFrom_values (sortAsc vals) 1
    -- reduce getVelocityLayerIndex to a layerScan
    have hscan : ∀ w : Int, getVelocityLayerIndex (buildMapping names) n w =
        layerScan (mkLayers vals) 0 w := by
      intro w
      rw [getVelocityLayerIndex, hbm]
      norm_num
      rw [hbm]
    refine ⟨?_, ?_, ?_, ?_, ?_, ?_⟩
    · intro l0 h0
      rcases hsort : sortAsc vals with _ | ⟨v, vs⟩
      · exact absurd hsort hVne
      · show l0.velocityRangeStart = 1
        have : (mkLayers vals).head? = some ⟨v, 1, v⟩ := by
          rw [mkLayers, hsort]; rfl
        rw [this] at h0
        cases h0
        rfl
    · intro j l1 l2 h1 h2
      exact rangesFrom_consecutive (sortAsc vals) 1 j l1 l2 h1 h2
    · intro j l h1
      exact rangesFrom_end_eq_value (sortAsc vals) 1 j l h1
    · rw [show (⟨mkLayers vals, -1⟩ : NoteMapping).velocityLayers = mkLayers vals from rfl,
        hmapval]
      exact sortAsc_lt_of_nodup vals hnd
    · intro w hw1 hwtop
      -- the top layer and top value
      obtain ⟨ltop, hltop⟩ :=
        Option.isSome_iff_exists.mp (List.getLast?_isSome.mpr (by
          intro h
          apply hVne
          have := congrArg (List.map VelocityLayer.velocityValue) h
          rw [hmapval] at this
          simpa using this))
      have hwle : w ≤ ltop.velocityValue := hwtop ltop hltop
      have htopmem : ltop.velocityValue ∈ sortAsc vals := by
        rw [← hmapval]
        have : ((mkLayers vals).map VelocityLayer.velocityValue).getLast? =
            some ltop.velocityValue := by
          rw [List.getLast?_map, hltop]
          rfl
        exact List.mem_of_mem_getLast? this
      have hex : ∃ v ∈ sortAsc vals, w ≤ v := ⟨ltop.velocityValue, htopmem, hwle⟩
      constructor
      · show (mkLayers vals).countP (inLayerRange w) = 1
        rw [mkLayers, countP_rangesFrom (sortAsc vals) 1 w hchain, if_pos ⟨hw1, hex⟩]
      · obtain ⟨j, hjlen, hjeq⟩ := layerScan_found (sortAsc vals) 1 0 w hchain hw1 hex
        refine ⟨j, ?_, ?_⟩
        · show j < (mkLayers vals).length
          rw [mkLayers, rangesFrom_length]
          exact hjlen
        · rw [hscan w]
          rw [mkLayers]
          rw [hjeq]
          norm_num
    · intro w hwtop
      obtain ⟨ltop, hltop⟩ :=
        Option.isSome_iff_exists.mp (List.getLast?_isSome.mpr (by
          intro h
          apply hVne
          have := congrArg (List.map VelocityLayer.velocityValue) h
          rw [hmapval] at this
          simpa using this))
      have hlast : (sortAsc vals).getLast? = some ltop.velocityValue := by
        rw [← hmapval, List.getLast?_map, hltop]
        rfl
      have hall : ∀ v ∈ sortAsc vals, v < w := by
        intro v hvmem
        have := chain_le_getLast? (sortAsc vals) 0 ltop.velocityValue v hchain0 hlast hvmem
        have := hwtop ltop hltop
        omega
      rw [hscan w, mkLayers]
      exact layerScan_miss_high (sortAsc vals) 1 0 w hall


/-- Helper: `noteFromParts` fails when the octave part is empty or contains
a character other than a decimal digit or '-'. -/
theorem noteFromParts_invalid (pr : Int × List Char)
    (h : pr.2 = [] ∨ ∃ c ∈ pr.2, isOctChar c = false) : noteFromParts pr = -1 := by
  unfold noteFromParts
  rcases h with h | ⟨c, hc, hbad⟩
  · rw [if_pos (by simp [h])]
  · have hnem : ¬ pr.2.isEmpty = true := by
      intro h0
      rw [List.isEmpty_iff] at h0
      rw [h0] at hc
      simp at hc
    have hne : ¬ (pr.2.all isOctChar = true) := by
      simp only [List.all_eq_true]
      intro hall
      have := hall c hc
      rw [hbad] at this
      exact absurd this (by simp)
    rw [if_neg hnem, if_pos hne]

/-- C1 counterexample: in the library with the single file `C4_100_01.wav`,
note 60 has its own layer (top `velocityValue` 100), yet looking up velocity
127 returns `-1` instead of the top layer's index 0 — so the ranges do not
partition `[1,127]` and velocities above the top layer are not clamped into
it, contradicting the claim as stated. -/
theorem C1_velocity_partition_counterexample :
    buildMapping namesOne 60 = some ⟨[⟨100, 1, 100⟩], -1⟩ ∧
    getVelocityLayerIndex (buildMapping namesOne) 60 127 = -1 := by
  constructor <;> decide

theorem C1_velocity_partition_witness :
    (⟨[⟨100, 1, 100⟩], -1⟩ : NoteMapping).velocityLayers.countP (inLayerRange 55) = 1 ∧
    ∃ j : Nat, j < (⟨[⟨100, 1, 100⟩], -1⟩ : NoteMapping).velocityLayers.length ∧
      getVelocityLayerIndex (buildMapping namesOne) 60 55 = (j : Int) := by
  have h := (C1_velocity_partition namesOne 60 ⟨[⟨100, 1, 100⟩], -1⟩ (by decide)
    (by decide)).2.2.2.2.1 55 (by decide)
    (by
      intro ltop hl
      have hl2 : ltop = ⟨100, 1, 100⟩ := by simpa using hl.symm
      rw [hl2]
      decide)
  exact h

theorem C4_fallback_witness :
    layerValuesFor (parsedOf namesOne) 59 = [] ∧
    59 < ((60 : Int)).toNat ∧ ((60 : Int)).toNat < 128 ∧
    layerValuesFor (parsedOf namesOne) ((60 : Int)).toNat ≠ [] := by
  have h := (C4_fallback_invariant namesOne 59).1 ⟨[], (60 : Int)⟩ (by decide) (by decide)
  exact ⟨h.1, h.2.2.1, h.2.2.2.1, h.2.2.2.2.1⟩

/-- C2 (code bug): the source's `parseFileName` rejects round-robin values
above 3, so `C4_127_99.wav` fails to parse, while the repository's own
`FileNameParsingTests` ("Valid RR: 1+") and the specification expect it to
parse with round-robin 99; the boundary value 3 still parses. -/
theorem C2_roundRobin_code_bug :
    parseFileName "C4_127_99.wav" = none ∧
    parseFileName "C4_127_03.wav" = some (60, 127, 3) := by
  constructor <;> decide

/-- C3 counterexample: the octave part of `"C--1"` is not a signed decimal
number, so by the claim parsing must fail; but the source checks only
`containsOnly "0123456789-"` and reads the octave with `getIntValue`
(which stops at the second '-', yielding 0), so `"C--1"` parses to MIDI 12
instead of failing. -/
theorem C3_parseNoteName_counterexample : parseNoteName "C--1" = 12 := by
  decide

/-- C3 (amended): `parseNoteName` maps note names per the table
(C=0, D=2, E=4, F=5, G=7, A=9, B=11; '#' adds one; a 'b' subtracts one only
when followed by a digit) case-insensitively with MIDI
`(octave+1)*12+base` required to lie in 0..=127; all S1 examples hold, an
empty input, an unknown letter, an empty octave part, or an octave part
containing a character outside "0123456789-" fails, and every non-failure
result lies in 0..=127 — but the octave part is only checked to consist of
digits and '-' characters and is read by sign-then-digit-prefix parsing, so
`"C--1"` parses as octave 0 giving 12. -/
theorem C3_parseNoteName_spec :
    (parseNoteName "C4" = 60 ∧ parseNoteName "G#6" = 92 ∧ parseNoteName "Db3" = 49 ∧
     parseNoteName "C-1" = 0 ∧ parseNoteName "G9" = 127 ∧ parseNoteName "A9" = -1 ∧
     parseNoteName "Bb4" = 70 ∧ parseNoteName "B4" = 71) ∧
    (parseNoteName "c4" = 60 ∧ parseNoteName "bb4" = 70) ∧
    parseNoteName "" = -1 ∧
    (∀ (c0 : Char) (tail : List Char), letterBase c0.toUpper = -1 →
       parseNoteNameChars (c0 :: tail) = -1) ∧
    (∀ pr : Int × List Char, pr.2 = [] ∨ (∃ c ∈ pr.2, isOctChar c = false) →
       noteFromParts pr = -1) ∧
    (∀ cs : List Char, parseNoteNameChars cs = -1 ∨
       (0 ≤ parseNoteNameChars cs ∧ parseNoteNameChars cs ≤ 127)) ∧
    (parseNoteName "X4" = -1 ∧ parseNoteName "C" = -1 ∧ parseNoteName "C4x" = -1 ∧
     parseNoteName "C-2" = -1 ∧ parseNoteName "G#9" = -1) ∧
    parseNoteName "C--1" = 12 := by
  refine ⟨by decide, by decide, by decide, ?_, noteFromParts_invalid, parseNoteNameChars_range,
    by decide, by decide⟩
  intro c0 tail h
  simp [parseNoteNameChars, h]

theorem C3_parseNoteName_witness :
    letterBase ('X'.toUpper) = -1 ∧ parseNoteNameChars ('X' :: [ '4' ]) = -1 := by
  exact ⟨by decide, C3_parseNoteName_spec.2.2.2.1 'X' [ '4' ] (by decide)⟩

/-- C9: whenever `parseFileName` succeeds, the note lies in 0..=127, the
velocity in 1..=127 and the round-robin in 1..=3, so the loader's write
into the 4-element `roundRobinSamples` array at index `roundRobin` is in
bounds (`roundRobin.toNat < 4`). -/
theorem C9_parse_output_bounds (s : String) (n v r : Int)
    (h : parseFileName s = some (n, v, r)) :
    0 ≤ n ∧ n ≤ 127 ∧ 1 ≤ v ∧ v ≤ 127 ∧ 1 ≤ r ∧ r ≤ 3 ∧ r.toNat < 4 := by
  have := parseFileName_bounds s n v r h
  omega

theorem C9_parse_output_bounds_witness :
    parseFileName "C4_127_01.wav" = some (60, 127, 1) ∧
    (0 ≤ (60 : Int) ∧ (60 : Int) ≤ 127 ∧ 1 ≤ (127 : Int) ∧ (127 : Int) ≤ 127 ∧
     1 ≤ (1 : Int) ∧ (1 : Int) ≤ 3 ∧ (1 : Int).toNat < 4) :=
  ⟨by decide, C9_parse_output_bounds "C4_127_01.wav" 60 127 1 (by decide)⟩

theorem firstInactiveAux_spec (vs : List SVoice) :
    ∀ i c, firstInactiveAux vs i = some c →
      ∃ k, ∃ hk : k < vs.length, c = i + k ∧ (vs.get ⟨k, hk⟩).active = false := by
  induction vs with
  | nil => intro i c h; simp [firstInactiveAux] at h
  | cons v vs ih =>
    intro i c h
    simp only [firstInactiveAux] at h
    split_ifs at h with hv
    · obtain ⟨k, hk, hc, hget⟩ := ih (i + 1) c h
      exact ⟨k + 1, by simpa using Nat.succ_lt_succ hk, by omega, hget⟩
    · cases h
      exact ⟨0, by simp, by omega, by simpa using hv⟩

theorem firstInactiveAux_isSome (vs : List SVoice) :
    ∀ i, (∃ v ∈ vs, v.active = false) → (firstInactiveAux vs i).isSome = true := by
  induction vs with
  | nil => intro i h; simp at h
  | cons v vs ih =>
    intro i h
    simp only [firstInactiveAux]
    split_ifs with hv
    · apply ih
      obtain ⟨w, hw, hwa⟩ := h
      rcases List.mem_cons.mp hw with rfl | hw
      · rw [hv] at hwa; simp at hwa
      · exact ⟨w, hw, hwa⟩
    · rfl

theorem firstInactiveAux_none (vs : List SVoice) :
    ∀ i, firstInactiveAux vs i = none → ∀ v ∈ vs, v.active = true := by
  induction vs with
  | nil => intro i _ v hv; simp at hv
  | cons w ws ih =>
    intro i h v hv
    simp only [firstInactiveAux] at h
    split_ifs at h with hw
    rcases List.mem_cons.mp hv with rfl | hv
    · exact hw
    · exact ih (i + 1) h v hv

theorem firstInactive_eq_none (vs : List SVoice) (h : ∀ v ∈ vs, v.active = true) :
    firstInactive vs = none := by
  cases hfi : firstInactive vs with
  | none => rfl
  | some c =>
    obtain ⟨k, hk, _, hget⟩ := firstInactiveAux_spec vs 0 c hfi
    have := h (vs.get ⟨k, hk⟩) (vs.get_mem _ _)
    rw [this] at hget
    simp at hget

theorem fadeSameNote_length (vs : List SVoice) (n : Int) :
    (fadeSameNote vs n).length = vs.length := by
  simp [fadeSameNote]

theorem fadeSameNote_active (vs : List SVoice) (n : Int) :
    ∀ v ∈ fadeSameNote vs n, ∃ w ∈ vs, v.active = w.active := by
  intro v hv
  obtain ⟨w, hw, hwv⟩ := List.mem_map.mp hv
  refine ⟨w, hw, ?_⟩
  by_cases hc : w.active = true ∧ w.playingNote = n
  · rw [← hwv, if_pos hc]; rfl
  · rw [← hwv, if_neg hc]

/-- C5 (amended): on every note-on that resolves to a sample, each active
voice whose playing note equals the note is given a 10 ms quick fade-out
(`startQuickFadeOut`) — not a Release with a configured same-note release
time, which does not exist in this code; the Source streaming path applies
no same-note handling at all.  Stated here for the part_004 engine when a
free slot exists: the same-note voice ends up in quick-fade mode. -/
theorem C5_same_note_quickfade (st : EngineState) (midiNote velocity rr off : Int) (i : Nat)
    (hi : i < st.voices.length)
    (hfind : (findStreamingSample st (jlimitInt 0 127 (midiNote + off)).toNat velocity rr).isSome
       = true)
    (hact : (st.voices.get ⟨i, hi⟩).active = true)
    (hnote : (st.voices.get ⟨i, hi⟩).playingNote = midiNote)
    (hfree : ∃ v ∈ st.voices, v.active = false) :
    (noteOnP4 st midiNote velocity rr off).voices.get? i =
      some (quickFadeOut (st.voices.get ⟨i, hi⟩)) ∧
    (quickFadeOut (st.voices.get ⟨i, hi⟩)).mode = VoiceMode.quickFade ∧
    (quickFadeOut (st.voices.get ⟨i, hi⟩)).mode ≠ VoiceMode.releasing := by
  obtain ⟨ss, hss⟩ := Option.isSome_iff_exists.mp hfind
  have hfaded : (fadeSameNote st.voices midiNote).get? i =
      some (quickFadeOut (st.voices.get ⟨i, hi⟩)) := by
    rw [fadeSameNote, List.get?_map, List.get?_eq_get hi]
    simp only [Option.map_some']
    rw [if_pos ⟨hact, hnote⟩]
  have hfree2 : ∃ v ∈ fadeSameNote st.voices midiNote, v.active = false := by
    obtain ⟨w, hw, hwa⟩ := hfree
    refine ⟨if w.active = true ∧ w.playingNote = midiNote then quickFadeOut w else w,
      List.mem_map.mpr ⟨w, hw, rfl⟩, ?_⟩
    rw [if_neg (by rw [hwa]; simp)]
    exact hwa
  have hsome : (firstInactive (fadeSameNote st.voices midiNote)).isSome = true :=
    firstInactiveAux_isSome _ 0 hfree2
  obtain ⟨c, hc⟩ := Option.isSome_iff_exists.mp hsome
  obtain ⟨k, hk, hck, hcget⟩ := firstInactiveAux_spec _ 0 c hc
  have hkc : c = k := by omega
  subst hkc
  have hci : c ≠ i := by
    intro heq
    subst heq
    rw [List.get?_eq_get hk] at hfaded
    have h3 : (quickFadeOut (st.voices.get ⟨c, hi⟩)).active = false := by
      rw [← Option.some.inj hfaded]
      exact hcget
    have h4 : (st.voices.get ⟨c, hi⟩).active = false := h3
    rw [hact] at h4
    exact absurd h4 (by simp)
  refine ⟨?_, rfl, by simp [quickFadeOut]⟩
  simp only [noteOnP4]
  rw [hss]
  simp only
  rw [show firstInactive (fadeSameNote st.voices midiNote) = some c from hc]
  simp only
  rw [List.get?_set_ne _ _ hci]
  exact hfaded

/-- C6 (amended): when a note-on finds no inactive voice slot, the engine
does not quick-fade the globally oldest voice and retry — it force-stops
voice 0 (`stopVoice(false)`, no 10 ms ramp) and unconditionally reuses that
fixed slot, in both the part_004 `noteOn` and the Source
`noteOnStreaming`. -/
theorem C6_steal_slot0 (st : EngineState) (midiNote velocity rr off : Int)
    (hfind4 : (findStreamingSample st (jlimitInt 0 127 (midiNote + off)).toNat velocity rr).isSome
       = true)
    (hfindS : (findStreamingSample st midiNote.toNat velocity rr).isSome = true)
    (hall : ∀ v ∈ st.voices, v.active = true) :
    (noteOnP4 st midiNote velocity rr off).voices =
      (fadeSameNote st.voices midiNote).set 0 (startedVoice midiNote) ∧
    (noteOnStreamingSrc st midiNote velocity rr).voices =
      st.voices.set 0 (startedVoice midiNote) := by
  obtain ⟨ss, hss⟩ := Option.isSome_iff_exists.mp hfind4
  obtain ⟨ss2, hss2⟩ := Option.isSome_iff_exists.mp hfindS
  have hall2 : ∀ v ∈ fadeSameNote st.voices midiNote, v.active = true := by
    intro v hv
    obtain ⟨w, hw, hwc⟩ := fadeSameNote_active st.voices midiNote v hv
    rw [hwc]
    exact hall w hw
  constructor
  · simp only [noteOnP4]
    rw [hss]
    simp only
    rw [firstInactive_eq_none _ hall2]
  · simp only [noteOnStreamingSrc]
    rw [hss2]
    simp only
    rw [firstInactive_eq_none _ hall]

/-- C5 counterexample: with one active voice playing note 60 and a free
slot, a second note-on for 60 puts the old voice into the 10 ms quick fade
(`VoiceMode.quickFade`), not into Release with a same-note release time —
contradicting the claim, which forbids a quick fade here. -/
theorem C5_same_note_counterexample :
    (noteOnP4 stTwo 60 100 1 0).voices.get? 0 = some ⟨true, 60, VoiceMode.quickFade⟩ ∧
    VoiceMode.quickFade ≠ VoiceMode.releasing := by
  constructor <;> decide

theorem C5_same_note_witness :
    (noteOnP4 stTwo 60 100 1 0).voices.get? 0 =
      some (quickFadeOut (stTwo.voices.get ⟨0, by decide⟩)) ∧
    (quickFadeOut (stTwo.voices.get ⟨0, by decide⟩)).mode = VoiceMode.quickFade ∧
    (quickFadeOut (stTwo.voices.get ⟨0, by decide⟩)).mode ≠ VoiceMode.releasing :=
  C5_same_note_quickfade stTwo 60 100 1 0 0 (by decide) (by decide) (by decide) (by decide) (by decide)

set_option maxRecDepth 8192 in
/-- C6 counterexample: with all 180 voices active (playing note 61), a
note-on for 60 replaces voice 0 outright with the new voice and no voice
anywhere is given a 10 ms quick fade — contradicting the claim that the
oldest voice is quick-faded and that a fixed slot is never unconditionally
reused. -/
theorem C6_steal_counterexample :
    (noteOnP4 stFull 60 100 1 0).voices.get? 0 = some (startedVoice 60) ∧
    ∀ v ∈ (noteOnP4 stFull 60 100 1 0).voices, v.mode ≠ VoiceMode.quickFade := by
  constructor <;> decide

set_option maxRecDepth 8192 in
theorem C6_steal_witness :
    (noteOnP4 stFull 60 100 1 0).voices =
      (fadeSameNote stFull.voices 60).set 0 (startedVoice 60) ∧
    (noteOnStreamingSrc stFull 60 100 1).voices = stFull.voices.set 0 (startedVoice 60) :=
  C6_steal_slot0 stFull 60 100 1 0 (by decide) (by decide) (by decide)

/-- Helper: clearing a boolean vector leaves every entry false. -/
theorem getD_map_const_false (l : List Bool) : ∀ k : Nat, (l.map (fun _ => false)).getD k false = false := by
  induction l with
  | nil => intro k; rfl
  | cons b bs ih =>
    intro k
    cases k with
    | zero => rfl
    | succ k => exact ih k

/-- C8: sustain-pedal semantics of the processor — a CC64 value >= 64 sets
the pedal down and < 64 up; a note-off while the pedal is down marks the
note sustained in the 128-entry boolean vector and triggers no engine
release; on the pedal's up-edge, `noteOff` is emitted exactly for the
notes marked sustained and all sustained flags are cleared; a note-off
with the pedal up releases immediately. -/
theorem C8_sustain_pedal (st : PState) :
    (∀ val : Int, ((handleEvent st (MidiEvent.controller 64 val)).1).sustainPedalDown =
       decide (val ≥ 64)) ∧
    (∀ note : Int, st.sustainPedalDown = true →
       handleEvent st (MidiEvent.noteOffEv note) =
         ({ st with noteSustained :=
             st.noteSustained.set (jlimitInt 0 127 (note + st.transposeAmount)).toNat true },
          [])) ∧
    (∀ val : Int, val < 64 → st.sustainPedalDown = true →
       (∀ k : Nat, k < 128 →
          (EngineCall.off (k : Int) ∈ (handleEvent st (MidiEvent.controller 64 val)).2 ↔
            st.noteSustained.getD k false = true)) ∧
       (∀ k : Nat,
          ((handleEvent st (MidiEvent.controller 64 val)).1).noteSustained.getD k false =
            false)) ∧
    (∀ note : Int, st.sustainPedalDown = false →
       handleEvent st (MidiEvent.noteOffEv note) =
         (st, [EngineCall.off (jlimitInt 0 127 (note + st.transposeAmount))])) := by
  refine ⟨?_, ?_, ?_, ?_⟩
  · intro val
    simp only [handleEvent]
    rw [if_pos trivial]
    split_ifs with h
    · obtain ⟨h1, h2⟩ := h
      have hnge : ¬ (val ≥ 64) := by omega
      simp [hnge]
    · rfl
  · intro note hped
    simp only [handleEvent]
    rw [if_pos hped]
  · intro val hval hped
    constructor
    · intro k hk
      simp only [handleEvent]
      rw [if_pos trivial, if_pos (And.intro hval hped)]
      simp only [List.mem_filterMap, List.mem_range]
      constructor
      · rintro ⟨a, ha, haeq⟩
        by_cases hs : st.noteSustained.getD a false = true
        · rw [if_pos hs] at haeq
          simp only [Option.some.injEq, EngineCall.off.injEq, Int.natCast_inj] at haeq
          rw [← haeq]
          exact hs
        · rw [if_neg hs] at haeq
          simp at haeq
      · intro hs
        exact ⟨k, hk, by rw [if_pos hs]⟩
    · intro k
      simp only [handleEvent]
      rw [if_pos trivial, if_pos (And.intro hval hped)]
      exact getD_map_const_false st.noteSustained k
  · intro note hped
    simp only [handleEvent]
    rw [if_neg (by rw [hped]; simp)]

theorem C8_sustain_pedal_witness :
    ((handleEvent pstateW (MidiEvent.controller 64 0)).1).sustainPedalDown = decide ((0:Int) ≥ 64) ∧
    (EngineCall.off ((60:Nat) : Int) ∈ (handleEvent pstateW (MidiEvent.controller 64 0)).2 ↔
      pstateW.noteSustained.getD 60 false = true) ∧
    ((handleEvent pstateW (MidiEvent.controller 64 0)).1).noteSustained.getD 60 false = false := by
  refine ⟨(C8_sustain_pedal pstateW).1 0, ?_, ?_⟩
  · exact ((C8_sustain_pedal pstateW).2.2.1 0 (by decide) (by decide)).1 60 (by decide)
  · exact ((C8_sustain_pedal pstateW).2.2.1 0 (by decide) (by decide)).2 60

end MidiSampler

namespace MidiSampler

theorem setADSR_ok (a d su r : ℝ) : ParamsOk (setADSR a d su r) := by
  unfold ParamsOk setADSR
  refine ⟨le_max_left _ _, le_max_left _ _, ?_, ?_, le_max_left _ _⟩
  · split_ifs with h1 h2 <;> norm_num
    · linarith
  · split_ifs with h1 h2 <;> norm_num
    · linarith

theorem advanceEnv_spec (p : Params) (sr : ℝ) (v : RVoice)
    (hp : ParamsOk p) (hsr : 0 < sr) (hv : VoiceInv v)
    (hnid : v.envStage ≠ EnvelopeStage.idle)
    (hnr : ¬ (v.envStage = EnvelopeStage.release ∧ v.envLevel + v.envIncrement ≤ 0)) :
    VoiceInv (advanceEnv p sr v) := by
  obtain ⟨hpa, hpd, hps0, hps1, hpr⟩ := hp
  obtain ⟨smp, pos, pr, mn, act, stage, lvl, inc⟩ := v
  obtain ⟨hl0, hl1, hatt, hdec, hrel⟩ := hv
  dsimp only at hl0 hl1 hatt hdec hrel hnr hnid
  cases stage with
  | attack =>
    have hinc : 0 ≤ inc := hatt rfl
    dsimp only [advanceEnv]
    split_ifs with h
    · refine ⟨by norm_num, by norm_num, ?_, ?_, ?_⟩
      · intro h2; dsimp only at h2; simp at h2
      · intro _
        dsimp only
        apply div_nonpos_of_nonpos_of_nonneg
        · linarith
        · positivity
      · intro h2; dsimp only at h2; simp at h2
    · push_neg at h
      exact ⟨by dsimp only; linarith, by dsimp only; linarith, fun _ => hinc,
        fun h2 => by dsimp only at h2; simp at h2, fun h2 => by dsimp only at h2; simp at h2⟩
  | decay =>
    have hinc : inc ≤ 0 := hdec rfl
    dsimp only [advanceEnv]
    split_ifs with h
    · exact ⟨hps0, hps1, fun h2 => by dsimp only at h2; simp at h2, fun _ => le_refl 0,
        fun h2 => by dsimp only at h2; simp at h2⟩
    · push_neg at h
      exact ⟨by dsimp only; linarith, by dsimp only; linarith,
        fun h2 => by dsimp only at h2; simp at h2, fun _ => hinc,
        fun h2 => by dsimp only at h2; simp at h2⟩
  | sustain =>
    dsimp only [advanceEnv]
    exact ⟨hps0, hps1, fun h2 => by dsimp only at h2; simp at h2,
      fun h2 => by dsimp only at h2; simp at h2, fun h2 => by dsimp only at h2; simp at h2⟩
  | release =>
    have hinc : inc ≤ 0 := hrel rfl
    have hpos : ¬ (lvl + inc ≤ 0) := fun hle => hnr ⟨rfl, hle⟩
    push_neg at hpos
    dsimp only [advanceEnv]
    exact ⟨by dsimp only; linarith, by dsimp only; linarith,
      fun h2 => by dsimp only at h2; simp at h2,
      fun h2 => by dsimp only at h2; simp at h2, fun _ => hinc⟩
  | idle =>
    exact absurd rfl hnid

end MidiSampler

namespace MidiSampler

theorem renderFrame_spec (p : Params) (sr : ℝ) (s : RamSample) (v : RVoice)
    (hp : ParamsOk p) (hsr : 0 < sr) (hv : VoiceInv v) :
    VoiceInv (renderFrame p sr s v).1 ∧
    ∀ c, (renderFrame p sr s v).2 = some c →
      0 ≤ ((renderFrame p sr s v).1).envLevel ∧ ((renderFrame p sr s v).1).envLevel ≤ 1 ∧
      ∀ ch, c ch = interpAt s v.position ch * ((renderFrame p sr s v).1).envLevel := by
  obtain ⟨hl0, hl1, hatt, hdec, hrel⟩ := hv
  unfold renderFrame
  split_ifs with h1 h2
  · refine ⟨⟨hl0, hl1, ?_, ?_, ?_⟩, ?_⟩
    · intro h; dsimp only at h; simp at h
    · intro h; dsimp only at h; simp at h
    · intro h; dsimp only at h; simp at h
    · intro c hc; dsimp only at hc
  · refine ⟨⟨le_refl 0, by norm_num, ?_, ?_, ?_⟩, ?_⟩
    · intro h; dsimp only at h; simp at h
    · intro h; dsimp only at h; simp at h
    · intro h; dsimp only at h; simp at h
    · intro c hc; dsimp only at hc
  · push_neg at h1
    have hinv2 : VoiceInv (advanceEnv p sr v) :=
      advanceEnv_spec p sr v hp hsr ⟨hl0, hl1, hatt, hdec, hrel⟩ h1.2 h2
    constructor
    · exact hinv2
    · intro c hc
      dsimp only at hc
      have hceq := Option.some.inj hc
      refine ⟨hinv2.1, hinv2.2.1, ?_⟩
      intro ch
      rw [← hceq]

theorem renderBlock_spec (p : Params) (sr : ℝ) (s : RamSample)
    (hp : ParamsOk p) (hsr : 0 < sr) :
    ∀ (n : Nat) (v : RVoice), VoiceInv v →
      VoiceInv (renderBlock p sr s n v).1 ∧
      ∀ c ∈ (renderBlock p sr s n v).2, ∃ pos lvl, 0 ≤ lvl ∧ lvl ≤ 1 ∧
        ∀ ch, c ch = interpAt s pos ch * lvl := by
  intro n
  induction n with
  | zero =>
    intro v hv
    refine ⟨hv, ?_⟩
    intro c hc
    simp [renderBlock] at hc
  | succ n ih =>
    intro v hv
    have hrs := renderFrame_spec p sr s v hp hsr hv
    rcases hrf : renderFrame p sr s v with ⟨v1, oc⟩
    rw [hrf] at hrs
    cases oc with
    | none =>
      have hres : renderBlock p sr s (n + 1) v = (v1, []) := by
        simp only [renderBlock, hrf]
      rw [hres]
      refine ⟨hrs.1, ?_⟩
      intro c hc
      simp at hc
    | some c0 =>
      have hres : renderBlock p sr s (n + 1) v =
          ((renderBlock p sr s n v1).1, c0 :: (renderBlock p sr s n v1).2) := by
        simp only [renderBlock, hrf]
      have hv1 : VoiceInv v1 := hrs.1
      obtain ⟨hl0, hl1, hch⟩ := hrs.2 c0 rfl
      have htail := ih v1 hv1
      rw [hres]
      refine ⟨htail.1, ?_⟩
      intro c hc
      rcases List.mem_cons.mp hc with rfl | hmem
      · exact ⟨v.position, v1.envLevel, hl0, hl1, hch⟩
      · exact htail.2 c hmem

theorem firstInactiveRAux_lt : ∀ (l : List RVoice) (k i : Nat),
    firstInactiveRAux l k = some i → k ≤ i ∧ i < k + l.length := by
  intro l
  induction l with
  | nil =>
    intro k i h
    exact absurd h (by simp [firstInactiveRAux])
  | cons v vs ih =>
    intro k i h
    rw [firstInactiveRAux] at h
    split_ifs at h with hac
    · obtain ⟨h1, h2⟩ := ih (k + 1) i h
      simp only [List.length_cons]
      omega
    · obtain rfl : k = i := Option.some.inj h
      simp only [List.length_cons]
      omega

theorem stealAux_some_best : ∀ (l : List RVoice) (k : Nat) (mp : ℝ) (j : Nat),
    (stealAux l k mp (some j)).isSome := by
  intro l
  induction l with
  | nil =>
    intro k mp j
    simp [stealAux]
  | cons v vs ih =>
    intro k mp j
    rw [stealAux]
    split_ifs
    · exact ih (k + 1) v.position k
    · exact ih (k + 1) mp j

theorem stealAux_isSome : ∀ (l : List RVoice) (k : Nat) (mp : ℝ) (best : Option Nat),
    (∃ v ∈ l, mp < v.position) → (stealAux l k mp best).isSome := by
  intro l
  induction l with
  | nil =>
    intro k mp best h
    exact absurd h (by simp)
  | cons v vs ih =>
    intro k mp best h
    rw [stealAux]
    split_ifs with hlt
    · exact stealAux_some_best vs (k + 1) v.position k
    · obtain ⟨w, hw, hwp⟩ := h
      rcases List.mem_cons.mp hw with rfl | hmem
      · exact absurd hwp hlt
      · exact ih (k + 1) mp best ⟨w, hmem, hwp⟩

theorem stealAux_lt : ∀ (l : List RVoice) (k : Nat) (mp : ℝ) (best : Option Nat),
    (∀ j, best = some j → j < k) → ∀ i, stealAux l k mp best = some i →
      i < k + l.length := by
  intro l
  induction l with
  | nil =>
    intro k mp best hb i h
    simp only [stealAux] at h
    have := hb i h
    simpa using lt_of_lt_of_le this (Nat.le_add_right k 0)
  | cons v vs ih =>
    intro k mp best hb i h
    rw [stealAux] at h
    split_ifs at h with hlt
    · have hres := ih (k + 1) v.position (some k)
        (fun j hj => by obtain rfl : k = j := Option.some.inj hj; exact Nat.lt_succ_self _) i h
      simp only [List.length_cons]
      omega
    · have hres := ih (k + 1) mp best
        (fun j hj => lt_trans (hb j hj) (Nat.lt_succ_self k)) i h
      simp only [List.length_cons]
      omega

/-- C7: a note-on that resolves (through `findSample`) to a sample stored under
note `actualNote` writes, into some voice slot, a voice initialised with
position 0, the Attack envelope stage, and pitch ratio exactly
`(sampleRate / hostRate) * 2 ^ ((midiNote - actualNote) / 12)`; it suffices
that some voice has progressed past position −1 (every slot ever played has
position ≥ 0, and the stealing scan starts from −1). -/
theorem C7_voice_init (voices : List RVoice) (m : Int → Option RamMapping) (p : Params)
    (sr : ℝ) (midiNote velocity rr : Int) (s : RamSample) (actualNote : Int)
    (hfind : findSample m midiNote velocity rr = some (s, actualNote))
    (hpos : ∃ v ∈ voices, (-1 : ℝ) < v.position) :
    ∃ i, ∃ hi : i < (noteOnRAM voices m p sr midiNote velocity rr).length,
      (noteOnRAM voices m p sr midiNote velocity rr).get ⟨i, hi⟩ =
        startVoiceR s actualNote midiNote p sr ∧
      (startVoiceR s actualNote midiNote p sr).position = 0 ∧
      (startVoiceR s actualNote midiNote p sr).envStage = EnvelopeStage.attack ∧
      (startVoiceR s actualNote midiNote p sr).pitchRate =
        (s.sampleRate / sr) * (2 : ℝ) ^ ((((midiNote - actualNote : Int)) : ℝ) / 12) := by
  cases hfi : firstInactiveR voices with
  | some i =>
    have hfi2 := hfi
    unfold firstInactiveR at hfi2
    have hilt : i < voices.length := by
      have h2 := (firstInactiveRAux_lt voices 0 i hfi2).2
      simpa using h2
    have hres : noteOnRAM voices m p sr midiNote velocity rr =
        voices.set i (startVoiceR s actualNote midiNote p sr) := by
      simp only [noteOnRAM, hfind, hfi]
    rw [hres]
    refine ⟨i, ?_, ?_, rfl, rfl, rfl⟩
    · simpa using hilt
    · exact List.get_set_eq _
  | none =>
    obtain ⟨v0, hv0m, hv0p⟩ := hpos
    have hsome : (stealAux voices 0 (-1) none).isSome :=
      stealAux_isSome voices 0 (-1) none ⟨v0, hv0m, hv0p⟩
    obtain ⟨i, hsi⟩ := Option.isSome_iff_exists.mp hsome
    have hilt : i < voices.length := by
      have h2 := stealAux_lt voices 0 (-1) none (fun j hj => by simp at hj) i hsi
      simpa using h2
    have hres : noteOnRAM voices m p sr midiNote velocity rr =
        voices.set i (startVoiceR s actualNote midiNote p sr) := by
      simp only [noteOnRAM, hfind, hfi, stealIdx, hsi]
    rw [hres]
    refine ⟨i, ?_, ?_, rfl, rfl, rfl⟩
    · simpa using hilt
    · exact List.get_set_eq _

theorem C7_voice_init_witness :
    ∃ i, ∃ hi : i < (noteOnRAM voicesW mapW pW 48000 60 100 1).length,
      (noteOnRAM voicesW mapW pW 48000 60 100 1).get ⟨i, hi⟩ =
        startVoiceR sW 60 60 pW 48000 ∧
      (startVoiceR sW 60 60 pW 48000).position = 0 ∧
      (startVoiceR sW 60 60 pW 48000).envStage = EnvelopeStage.attack ∧
      (startVoiceR sW 60 60 pW 48000).pitchRate = 44100 / 48000 := by
  have hex : ∃ v ∈ voicesW, (-1 : ℝ) < v.position := by
    unfold voicesW
    exact ⟨_, List.mem_cons_self _ _, by norm_num⟩
  obtain ⟨i, hi, hget, hpos0, hstg, hpr⟩ :=
    C7_voice_init voicesW mapW pW 48000 60 100 1 sW 60 rfl hex
  refine ⟨i, hi, hget, hpos0, hstg, ?_⟩
  rw [hpr]
  norm_num [sW, Real.rpow_zero]

/-- C10: `setADSR` clamps the sustain level to `[0,1]` and the stage times to
at least 1 ms; under those parameters the RAM renderer maintains
`0 ≤ envLevel ≤ 1` at every frame it mixes — a freshly started voice and a
released voice keep the invariant too — and every per-frame contribution is
the interpolated source value scaled by a factor in `[0,1]`. -/
theorem C10_envelope_bounds :
    (∀ a d su r, ParamsOk (setADSR a d su r)) ∧
    (∀ (p : Params) (sr : ℝ) (s : RamSample) (n : Nat) (v : RVoice),
      ParamsOk p → 0 < sr → VoiceInv v →
        VoiceInv (renderBlock p sr s n v).1 ∧
        ∀ c ∈ (renderBlock p sr s n v).2, ∃ pos lvl, 0 ≤ lvl ∧ lvl ≤ 1 ∧
          ∀ ch, c ch = interpAt s pos ch * lvl) ∧
    (∀ (s : RamSample) (actualNote midiNote : Int) (p : Params) (sr : ℝ),
      ParamsOk p → 0 < sr → VoiceInv (startVoiceR s actualNote midiNote p sr)) ∧
    (∀ (p : Params) (sr : ℝ) (midiNote : Int) (v : RVoice),
      ParamsOk p → 0 < sr → VoiceInv v → VoiceInv (noteOffRAMVoice p sr midiNote v)) := by
  refine ⟨setADSR_ok, ?_, ?_, ?_⟩
  · intro p sr s n v hp hsr hv
    exact renderBlock_spec p sr s hp hsr n v hv
  · intro s an mn p sr hp hsr
    refine ⟨le_refl 0, (by norm_num : (0:ℝ) ≤ 1), ?_, ?_, ?_⟩
    · intro _
      have h1 : 0 < p.attack * sr :=
        mul_pos (lt_of_lt_of_le (by norm_num) hp.1) hsr
      exact le_of_lt (div_pos one_pos h1)
    · intro h
      simp [startVoiceR] at h
    · intro h
      simp [startVoiceR] at h
  · intro p sr mn v hp hsr hv
    obtain ⟨hl0, hl1, hatt, hdec, hrel⟩ := hv
    unfold noteOffRAMVoice
    split_ifs with h
    · refine ⟨hl0, hl1, ?_, ?_, ?_⟩
      · intro hh
        simp at hh
      · intro hh
        simp at hh
      · intro _
        have h1 : 0 < p.release * sr :=
          mul_pos (lt_of_lt_of_le (by norm_num) hp.2.2.2.2) hsr
        exact div_nonpos_of_nonpos_of_nonneg (neg_nonpos_of_nonneg hl0) (le_of_lt h1)
    · exact ⟨hl0, hl1, hatt, hdec, hrel⟩

theorem C10_envelope_bounds_witness :
    VoiceInv (renderBlock pW 48000 sW 2 vW).1 ∧
    VoiceInv (noteOffRAMVoice pW 48000 60 vW) := by
  have h := C10_envelope_bounds
  have hpok : ParamsOk pW := h.1 0.01 0.1 0.7 0.3
  have hv : VoiceInv vW :=
    ⟨le_refl 0, by norm_num [vW], fun _ => by norm_num [vW],
     fun hh => by simp [vW] at hh, fun hh => by simp [vW] at hh⟩
  exact ⟨(h.2.1 pW 48000 sW 2 vW hpok (by norm_num) hv).1,
         h.2.2.2 pW 48000 60 vW hpok (by norm_num) hv⟩

end MidiSampler
